import Mathlib

/-!
Verification of the SUB command codec (`src/protocol/client/sub_cmd.rs`).

The Rust code is shallowly embedded: `String` becomes `List Char`, byte
buffers become `List Nat`, and the fallible parser returns an explicit
`ParseOutcome` that records panics (out-of-bounds slicing) as well as the
typed `CommandError` results.  UTF-8 encoding/decoding and
`str::split_whitespace` are modelled faithfully at the byte and character
level.
-/

set_option maxRecDepth 4000

namespace Nitox

/-- Whitespace as decided by Rust's `char::is_whitespace`: the Unicode
`White_Space` property. -/
def isRustWhitespace (c : Char) : Bool :=
  let n := c.toNat
  n == 0x09 || n == 0x0A || n == 0x0B || n == 0x0C || n == 0x0D || n == 0x20 ||
  n == 0x85 || n == 0xA0 || n == 0x1680 ||
  (decide (0x2000 ≤ n) && decide (n ≤ 0x200A)) ||
  n == 0x2028 || n == 0x2029 || n == 0x202F || n == 0x205F || n == 0x3000

/-- UTF-8 encoding of one Unicode scalar value, as Rust's `String` stores it. -/
def utf8EncodeChar (c : Char) : List Nat :=
  let n := c.toNat
  if n < 0x80 then [n]
  else if n < 0x800 then [0xC0 + n / 0x40, 0x80 + n % 0x40]
  else if n < 0x10000 then
    [0xE0 + n / 0x1000, 0x80 + n / 0x40 % 0x40, 0x80 + n % 0x40]
  else
    [0xF0 + n / 0x40000, 0x80 + n / 0x1000 % 0x40, 0x80 + n / 0x40 % 0x40,
     0x80 + n % 0x40]

/-- UTF-8 encoding of a string (list of scalar values) into bytes. -/
def utf8EncodeStr : List Char → List Nat
  | [] => []
  | c :: s => utf8EncodeChar c ++ utf8EncodeStr s

/-- Strict UTF-8 decoding automaton, as Rust's `str::from_utf8` validates:
`needed` is the number of continuation bytes still expected, `acc` the
scalar value accumulated so far, and `lo`/`hi` the admissible range for the
next continuation byte.  The lead-specific ranges for the first
continuation byte are exactly the ones of `core::str`'s UTF-8 validation
table, excluding overlong forms, surrogates and values above `0x10FFFF`;
later continuation bytes must be in `0x80..0xBF`. -/
def utf8DecodeLoop : List Nat → Nat → Nat → Nat → Nat → Option (List Char)
  | [], needed, _, _, _ => if needed = 0 then some [] else none
  | b :: rest, needed, acc, lo, hi =>
    if needed = 0 then
      if b < 0x80 then
        (utf8DecodeLoop rest 0 0 0 0).map (fun cs => Char.ofNat b :: cs)
      else if b < 0xC2 then none
      else if b < 0xE0 then utf8DecodeLoop rest 1 (b - 0xC0) 0x80 0xBF
      else if b = 0xE0 then utf8DecodeLoop rest 2 0 0xA0 0xBF
      else if b = 0xED then utf8DecodeLoop rest 2 0xD 0x80 0x9F
      else if b < 0xF0 then utf8DecodeLoop rest 2 (b - 0xE0) 0x80 0xBF
      else if b = 0xF0 then utf8DecodeLoop rest 3 0 0x90 0xBF
      else if b = 0xF4 then utf8DecodeLoop rest 3 4 0x80 0x8F
      else if b < 0xF5 then utf8DecodeLoop rest 3 (b - 0xF0) 0x80 0xBF
      else none
    else
      if lo ≤ b ∧ b ≤ hi then
        if needed = 1 then
          (utf8DecodeLoop rest 0 0 0 0).map
            (fun cs => Char.ofNat (acc * 0x40 + (b - 0x80)) :: cs)
        else utf8DecodeLoop rest (needed - 1) (acc * 0x40 + (b - 0x80)) 0x80 0xBF
      else none

/-- Strict UTF-8 decoding, as Rust's `str::from_utf8`: rejects overlong
forms, surrogates, scalar values above `0x10FFFF`, and truncated
sequences. -/
def utf8Decode (l : List Nat) : Option (List Char) :=
  utf8DecodeLoop l 0 0 0 0

/-- Worker for `splitWs`; `acc` holds the current token's characters in
reverse order. -/
def splitWsAux : List Char → List Char → List (List Char)
  | [], acc => if acc = [] then [] else [acc.reverse]
  | c :: rest, acc =>
    if isRustWhitespace c then
      if acc = [] then splitWsAux rest []
      else acc.reverse :: splitWsAux rest []
    else splitWsAux rest (c :: acc)

/-- Rust's `str::split_whitespace`: split on runs of Unicode whitespace,
producing the non-empty tokens in order. -/
def splitWs (l : List Char) : List (List Char) :=
  splitWsAux l []

/-- Error type of the codec layer, restricted to the variants the SUB codec
produces: `IncompleteCommandError`, `CommandMalformed`, and the variant the
`From<Utf8Error>` conversion used by the `?` operator yields. -/
inductive CommandError where
  | IncompleteCommandError
  | CommandMalformed
  | Utf8Error
deriving DecidableEq

/-- The `SubCommand` struct: `subject`, optional `queue_group`, `sid`. -/
structure SubCommand where
  subject : List Char
  queue_group : Option (List Char)
  sid : List Char
deriving DecidableEq

/-- Result of running `try_parse`, with panics (out-of-bounds slicing /
arithmetic underflow) recorded explicitly. -/
inductive ParseOutcome where
  | panic
  | ok (cmd : SubCommand)
  | err (e : CommandError)
deriving DecidableEq

/-- `Command::CMD_NAME` for `SubCommand`: the bytes `b"SUB"`. -/
def CMD_NAME : List Nat := [0x53, 0x55, 0x42]

/-- `SubCommand::into_vec`: formats `SUB\t{subject}{qg}\t{sid}\r\n` where
`qg` is `\t{queue_group}` when present and empty otherwise, and returns the
UTF-8 bytes of that string.  The Rust function wraps the bytes in `Ok`
unconditionally; the `Result` wrapper is dropped here. -/
def SubCommand.into_vec (self : SubCommand) : List Nat :=
  let qg : List Char :=
    match self.queue_group with
    | some queue_group => '\t' :: queue_group
    | none => []
  utf8EncodeStr ("SUB\t".toList ++ self.subject ++ qg ++ '\t' :: self.sid ++ "\r\n".toList)

/-- `SubCommand::try_parse`.  The Rust code slices `buf[len - 2..]`, which
panics when `len < 2` (integer underflow in debug builds, out-of-range
slicing in release builds); that case is modelled as `ParseOutcome.panic`.
Otherwise: check the CRLF terminator, decode the rest as UTF-8, split on
whitespace, check the `SUB` tag, then take the subject from the front, the
sid from the back, and any next front token as the queue group. -/
def SubCommand.try_parse (buf : List Nat) : ParseOutcome :=
  let len := buf.length
  if len < 2 then .panic
  else if buf.drop (len - 2) ≠ [0x0D, 0x0A] then .err .IncompleteCommandError
  else
    match utf8Decode (buf.take (len - 2)) with
    | none => .err .Utf8Error
    | some whole_command =>
      match splitWs whole_command with
      | [] => .err .CommandMalformed
      | cmd :: split =>
        if utf8EncodeStr cmd ≠ CMD_NAME then .err .CommandMalformed
        else
          match split with
          | [] => .err .CommandMalformed
          | subject :: split2 =>
            match split2.getLast? with
            | none => .err .CommandMalformed
            | some sid =>
              .ok { subject := subject, queue_group := split2.dropLast.head?, sid := sid }

/-- The 62-symbol alphabet of rand's `Alphanumeric` distribution. -/
def alphanumericCharset : List Char :=
  "ABCDEFGHIJKLMNOPQRSTUVWXYZabcdefghijklmnopqrstuvwxyz0123456789".toList

theorem alphanumericCharset_length : alphanumericCharset.length = 62 := by decide

/-- `SubCommand::generate_sid`: twelve samples of the `Alphanumeric`
distribution.  The random generator is modelled as a stream of draws from
the 62-element alphabet, one per sampled position. -/
def SubCommand.generate_sid (rng : Nat → Fin 62) : List Char :=
  (List.range 12).map fun i =>
    alphanumericCharset.get (Fin.cast alphanumericCharset_length.symm (rng i))

/-- The argument-format rule on one field: non-empty, no embedded
whitespace. -/
def validArgB (s : List Char) : Bool :=
  !s.isEmpty && s.all fun c => !isRustWhitespace c

/-- Modelled from the spec: the `check_cmd_arg!` macro is defined outside
the provided sources; per the spec it "checks each provided string field
against the argument-format rule — non-empty, no embedded whitespace" and
fails with a validation error naming the offending field.  The error value
here is the field name itself. -/
def check_cmd_arg (arg fieldName : List Char) : Except (List Char) Unit :=
  if validArgB arg then .ok () else .error fieldName

/-- The builder struct generated by derive_builder: each field of
`SubCommand` becomes an `Option`-wrapped field recording whether it was
supplied. -/
structure SubCommandBuilder where
  subject : Option (List Char) := none
  queue_group : Option (Option (List Char)) := none
  sid : Option (List Char) := none

/-- `SubCommandBuilder::validate`: checks `subject` and `queue_group` when
they were supplied.  The supplied `sid`, if any, is not checked. -/
def SubCommandBuilder.validate (self : SubCommandBuilder) : Except (List Char) Unit :=
  match (match self.subject with
         | some subj => check_cmd_arg subj "subject".toList
         | none => Except.ok ()) with
  | .error e => .error e
  | .ok () =>
    match self.queue_group with
    | some (some qg) => check_cmd_arg qg "queue group".toList
    | _ => .ok ()

/-- Failure modes of builder finalization. -/
inductive BuildError where
  | ValidationError (field : List Char)
  | UninitializedField (field : List Char)
deriving DecidableEq

/-- Modelled from the spec and the derive_builder attributes in the source:
`build` first runs `validate`, then requires `subject` to be initialized,
defaults `queue_group` to `None` and `sid` to `SubCommand::generate_sid()`. -/
def SubCommandBuilder.build (self : SubCommandBuilder) (rng : Nat → Fin 62) :
    Except BuildError SubCommand :=
  match self.validate with
  | .error f => .error (.ValidationError f)
  | .ok () =>
    match self.subject with
    | none => .error (.UninitializedField "subject".toList)
    | some subj =>
      .ok { subject := subj,
            queue_group := self.queue_group.getD none,
            sid := self.sid.getD (SubCommand.generate_sid rng) }

/-- A fixed random stream used to instantiate theorems at concrete inputs. -/
def rng0 : Nat → Fin 62 := fun _ => 0

end Nitox

namespace Nitox

theorem char_ofNat_toNat (c : Char) : Char.ofNat c.toNat = c := by
  have h : c.toNat.isValidChar := c.valid
  rw [Char.ofNat, dif_pos h]
  apply Char.eq_of_val_eq
  apply UInt32.eq_of_toBitVec_eq
  apply BitVec.eq_of_toNat_eq
  rw [Char.ofNatAux]
  rw [BitVec.toNat_ofNatLt]
  rfl

theorem decodeLoop_ascii (b : Nat) (hb : b < 0x80) (rest : List Nat) :
    utf8DecodeLoop (b :: rest) 0 0 0 0 =
      (utf8DecodeLoop rest 0 0 0 0).map (fun cs => Char.ofNat b :: cs) := by
  rw [utf8DecodeLoop, if_pos rfl, if_pos hb]

theorem decodeLoop_lead2 (b : Nat) (h1 : 0xC2 ≤ b) (h2 : b < 0xE0) (rest : List Nat) :
    utf8DecodeLoop (b :: rest) 0 0 0 0 = utf8DecodeLoop rest 1 (b - 0xC0) 0x80 0xBF := by
  rw [utf8DecodeLoop, if_pos rfl, if_neg (by omega), if_neg (by omega), if_pos h2]

theorem decodeLoop_lead3E0 (rest : List Nat) :
    utf8DecodeLoop (0xE0 :: rest) 0 0 0 0 = utf8DecodeLoop rest 2 0 0xA0 0xBF := rfl

theorem decodeLoop_lead3ED (rest : List Nat) :
    utf8DecodeLoop (0xED :: rest) 0 0 0 0 = utf8DecodeLoop rest 2 0xD 0x80 0x9F := rfl

theorem decodeLoop_lead3 (b : Nat) (h1 : 0xE0 ≤ b) (h2 : b < 0xF0)
    (h3 : b ≠ 0xE0) (h4 : b ≠ 0xED) (rest : List Nat) :
    utf8DecodeLoop (b :: rest) 0 0 0 0 = utf8DecodeLoop rest 2 (b - 0xE0) 0x80 0xBF := by
  rw [utf8DecodeLoop, if_pos rfl, if_neg (by omega), if_neg (by omega)]
  rw [if_neg (by omega), if_neg h3, if_neg h4, if_pos h2]

theorem decodeLoop_lead4F0 (rest : List Nat) :
    utf8DecodeLoop (0xF0 :: rest) 0 0 0 0 = utf8DecodeLoop rest 3 0 0x90 0xBF := rfl

theorem decodeLoop_lead4F4 (rest : List Nat) :
    utf8DecodeLoop (0xF4 :: rest) 0 0 0 0 = utf8DecodeLoop rest 3 4 0x80 0x8F := rfl

theorem decodeLoop_lead4 (b : Nat) (h1 : 0xF0 ≤ b) (h2 : b < 0xF5)
    (h3 : b ≠ 0xF0) (h4 : b ≠ 0xF4) (rest : List Nat) :
    utf8DecodeLoop (b :: rest) 0 0 0 0 = utf8DecodeLoop rest 3 (b - 0xF0) 0x80 0xBF := by
  rw [utf8DecodeLoop, if_pos rfl, if_neg (by omega), if_neg (by omega), if_neg (by omega)]
  rw [if_neg (by omega), if_neg (by omega), if_neg (by omega), if_neg h3, if_neg h4,
    if_pos h2]

theorem decodeLoop_cont_last (b acc lo hi : Nat) (hlo : lo ≤ b) (hhi : b ≤ hi)
    (rest : List Nat) :
    utf8DecodeLoop (b :: rest) 1 acc lo hi =
      (utf8DecodeLoop rest 0 0 0 0).map
        (fun cs => Char.ofNat (acc * 0x40 + (b - 0x80)) :: cs) := by
  rw [utf8DecodeLoop, if_neg (by omega), if_pos ⟨hlo, hhi⟩, if_pos rfl]

theorem decodeLoop_cont_more (b acc lo hi n : Nat) (hn0 : n ≠ 0) (hn1 : n ≠ 1)
    (hlo : lo ≤ b) (hhi : b ≤ hi) (rest : List Nat) :
    utf8DecodeLoop (b :: rest) n acc lo hi =
      utf8DecodeLoop rest (n - 1) (acc * 0x40 + (b - 0x80)) 0x80 0xBF := by
  rw [utf8DecodeLoop, if_neg hn0, if_pos ⟨hlo, hhi⟩, if_neg hn1]

theorem utf8DecodeLoop_encodeChar (c : Char) (l : List Nat) :
    utf8DecodeLoop (utf8EncodeChar c ++ l) 0 0 0 0 =
      (utf8DecodeLoop l 0 0 0 0).map (fun cs => c :: cs) := by
  have hv : c.toNat < 0xD800 ∨ (0xDFFF < c.toNat ∧ c.toNat < 0x110000) := c.valid
  by_cases h1 : c.toNat < 0x80
  · simp only [utf8EncodeChar, if_pos h1, List.cons_append, List.nil_append]
    rw [decodeLoop_ascii _ h1, char_ofNat_toNat]
  · by_cases h2 : c.toNat < 0x800
    · simp only [utf8EncodeChar, if_neg h1, if_pos h2, List.cons_append, List.nil_append]
      rw [decodeLoop_lead2 _ (by omega) (by omega)]
      rw [decodeLoop_cont_last _ _ _ _ (by omega) (by omega)]
      have hx : ((0xC0 + c.toNat / 0x40 - 0xC0) * 0x40 + (0x80 + c.toNat % 0x40 - 0x80))
          = c.toNat := by omega
      rw [hx, char_ofNat_toNat]
    · by_cases h3 : c.toNat < 0x10000
      · simp only [utf8EncodeChar, if_neg h1, if_neg h2, if_pos h3, List.cons_append,
          List.nil_append]
        by_cases hA : c.toNat < 0x1000
        · rw [show (0xE0 + c.toNat / 0x1000 : Nat) = 0xE0 by omega, decodeLoop_lead3E0]
          rw [decodeLoop_cont_more _ _ _ _ _ (by omega) (by omega) (by omega) (by omega)]
          rw [decodeLoop_cont_last _ _ _ _ (by omega) (by omega)]
          have hx : ((0 * 0x40 + (0x80 + c.toNat / 0x40 % 0x40 - 0x80)) * 0x40 +
              (0x80 + c.toNat % 0x40 - 0x80)) = c.toNat := by omega
          rw [hx, char_ofNat_toNat]
        · by_cases hB : c.toNat < 0xD000
          · rw [decodeLoop_lead3 _ (by omega) (by omega) (by omega) (by omega)]
            rw [decodeLoop_cont_more _ _ _ _ _ (by omega) (by omega) (by omega) (by omega)]
            rw [decodeLoop_cont_last _ _ _ _ (by omega) (by omega)]
            have hx : (((0xE0 + c.toNat / 0x1000 - 0xE0) * 0x40 +
                (0x80 + c.toNat / 0x40 % 0x40 - 0x80)) * 0x40 +
                (0x80 + c.toNat % 0x40 - 0x80)) = c.toNat := by omega
            rw [hx, char_ofNat_toNat]
          · by_cases hC : c.toNat < 0xE000
            · rw [show (0xE0 + c.toNat / 0x1000 : Nat) = 0xED by omega, decodeLoop_lead3ED]
              rw [decodeLoop_cont_more _ _ _ _ _ (by omega) (by omega) (by omega) (by omega)]
              rw [decodeLoop_cont_last _ _ _ _ (by omega) (by omega)]
              have hx : ((0xD * 0x40 + (0x80 + c.toNat / 0x40 % 0x40 - 0x80)) * 0x40 +
                  (0x80 + c.toNat % 0x40 - 0x80)) = c.toNat := by omega
              rw [hx, char_ofNat_toNat]
            · rw [decodeLoop_lead3 _ (by omega) (by omega) (by omega) (by omega)]
              rw [decodeLoop_cont_more _ _ _ _ _ (by omega) (by omega) (by omega) (by omega)]
              rw [decodeLoop_cont_last _ _ _ _ (by omega) (by omega)]
              have hx : (((0xE0 + c.toNat / 0x1000 - 0xE0) * 0x40 +
                  (0x80 + c.toNat / 0x40 % 0x40 - 0x80)) * 0x40 +
                  (0x80 + c.toNat % 0x40 - 0x80)) = c.toNat := by omega
              rw [hx, char_ofNat_toNat]
      · simp only [utf8EncodeChar, if_neg h1, if_neg h2, if_neg h3, List.cons_append,
          List.nil_append]
        by_cases hA : c.toNat < 0x40000
        · rw [show (0xF0 + c.toNat / 0x40000 : Nat) = 0xF0 by omega, decodeLoop_lead4F0]
          rw [decodeLoop_cont_more _ _ _ _ _ (by omega) (by omega) (by omega) (by omega)]
          rw [decodeLoop_cont_more _ _ _ _ _ (by omega) (by omega) (by omega) (by omega)]
          rw [decodeLoop_cont_last _ _ _ _ (by omega) (by omega)]
          have hx : (((0 * 0x40 + (0x80 + c.toNat / 0x1000 % 0x40 - 0x80)) * 0x40 +
              (0x80 + c.toNat / 0x40 % 0x40 - 0x80)) * 0x40 +
              (0x80 + c.toNat % 0x40 - 0x80)) = c.toNat := by omega
          rw [hx, char_ofNat_toNat]
        · by_cases hB : c.toNat < 0x100000
          · rw [decodeLoop_lead4 _ (by omega) (by omega) (by omega) (by omega)]
            rw [decodeLoop_cont_more _ _ _ _ _ (by omega) (by omega) (by omega) (by omega)]
            rw [decodeLoop_cont_more _ _ _ _ _ (by omega) (by omega) (by omega) (by omega)]
            rw [decodeLoop_cont_last _ _ _ _ (by omega) (by omega)]
            have hx : ((((0xF0 + c.toNat / 0x40000 - 0xF0) * 0x40 +
                (0x80 + c.toNat / 0x1000 % 0x40 - 0x80)) * 0x40 +
                (0x80 + c.toNat / 0x40 % 0x40 - 0x80)) * 0x40 +
                (0x80 + c.toNat % 0x40 - 0x80)) = c.toNat := by omega
            rw [hx, char_ofNat_toNat]
          · rw [show (0xF0 + c.toNat / 0x40000 : Nat) = 0xF4 by omega, decodeLoop_lead4F4]
            rw [decodeLoop_cont_more _ _ _ _ _ (by omega) (by omega) (by omega) (by omega)]
            rw [decodeLoop_cont_more _ _ _ _ _ (by omega) (by omega) (by omega) (by omega)]
            rw [decodeLoop_cont_last _ _ _ _ (by omega) (by omega)]
            have hx : (((4 * 0x40 + (0x80 + c.toNat / 0x1000 % 0x40 - 0x80)) * 0x40 +
                (0x80 + c.toNat / 0x40 % 0x40 - 0x80)) * 0x40 +
                (0x80 + c.toNat % 0x40 - 0x80)) = c.toNat := by omega
            rw [hx, char_ofNat_toNat]

end Nitox

namespace Nitox

theorem utf8EncodeStr_append (a b : List Char) :
    utf8EncodeStr (a ++ b) = utf8EncodeStr a ++ utf8EncodeStr b := by
  induction a with
  | nil => rfl
  | cons c s ih => simp [utf8EncodeStr, ih]

theorem utf8DecodeLoop_encodeStr (s : List Char) (l : List Nat) :
    utf8DecodeLoop (utf8EncodeStr s ++ l) 0 0 0 0 =
      (utf8DecodeLoop l 0 0 0 0).map (fun cs => s ++ cs) := by
  induction s with
  | nil =>
    simp only [utf8EncodeStr, List.nil_append]
    cases utf8DecodeLoop l 0 0 0 0 <;> rfl
  | cons c s ih =>
    simp only [utf8EncodeStr, List.append_assoc]
    rw [utf8DecodeLoop_encodeChar, ih]
    cases utf8DecodeLoop l 0 0 0 0 <;> rfl

theorem utf8Decode_encodeStr (s : List Char) : utf8Decode (utf8EncodeStr s) = some s := by
  have h := utf8DecodeLoop_encodeStr s []
  simpa [utf8Decode, utf8DecodeLoop] using h

theorem utf8EncodeStr_injective (a b : List Char) (h : utf8EncodeStr a = utf8EncodeStr b) :
    a = b := by
  have ha := utf8Decode_encodeStr a
  have hb := utf8Decode_encodeStr b
  rw [h, hb] at ha
  exact (Option.some_inj.mp ha).symm

theorem splitWsAux_token (t : List Char) (hns : ∀ c ∈ t, isRustWhitespace c = false) :
    ∀ (l acc : List Char), splitWsAux (t ++ l) acc = splitWsAux l (t.reverse ++ acc) := by
  induction t with
  | nil => intro l acc; simp
  | cons a t ih =>
    intro l acc
    have ha : isRustWhitespace a = false := hns a (by simp)
    rw [List.cons_append, splitWsAux, ha]
    simp only [Bool.false_eq_true, if_false]
    rw [ih (fun c hc => hns c (by simp [hc])) l (a :: acc)]
    simp

theorem splitWsAux_ws (d : Char) (hd : isRustWhitespace d = true) (l acc : List Char) :
    splitWsAux (d :: l) acc =
      if acc = [] then splitWsAux l [] else acc.reverse :: splitWsAux l [] := by
  rw [splitWsAux, hd]
  simp

theorem splitWs_token_sep (t : List Char) (ht : t ≠ [])
    (hns : ∀ c ∈ t, isRustWhitespace c = false) (d : Char)
    (hd : isRustWhitespace d = true) (l : List Char) :
    splitWs (t ++ d :: l) = t :: splitWs l := by
  rw [splitWs, splitWsAux_token t hns, splitWsAux_ws d hd]
  simp [ht]
  rfl

theorem splitWs_token_end (t : List Char) (ht : t ≠ [])
    (hns : ∀ c ∈ t, isRustWhitespace c = false) :
    splitWs t = [t] := by
  have h := splitWsAux_token t hns [] []
  simp only [List.append_nil] at h
  rw [splitWs, h, splitWsAux]
  simp [ht]

theorem splitWsAux_mem_valid : ∀ (l acc : List Char),
    (∀ c ∈ acc, isRustWhitespace c = false) →
    ∀ t ∈ splitWsAux l acc, t ≠ [] ∧ ∀ c ∈ t, isRustWhitespace c = false := by
  intro l
  induction l with
  | nil =>
    intro acc hacc t ht
    rw [splitWsAux] at ht
    by_cases h : acc = []
    · simp [h] at ht
    · simp [h] at ht
      subst ht
      refine ⟨by simpa using h, ?_⟩
      intro c hc
      exact hacc c (List.mem_reverse.mp hc)
  | cons a l ih =>
    intro acc hacc t ht
    rw [splitWsAux] at ht
    by_cases hws : isRustWhitespace a
    · rw [hws] at ht
      simp only [if_true] at ht
      by_cases h : acc = []
      · rw [if_pos h] at ht
        exact ih [] (by simp) t ht
      · rw [if_neg h] at ht
        rcases List.mem_cons.mp ht with h1 | h2
        · subst h1
          refine ⟨by simpa using h, ?_⟩
          intro c hc
          exact hacc c (List.mem_reverse.mp hc)
        · exact ih [] (by simp) t h2
    · rw [Bool.not_eq_true] at hws
      rw [hws] at ht
      simp only [Bool.false_eq_true, if_false] at ht
      refine ih (a :: acc) ?_ t ht
      intro c hc
      rcases List.mem_cons.mp hc with h1 | h2
      · subst h1; exact hws
      · exact hacc c h2

theorem splitWs_mem_valid (l : List Char) :
    ∀ t ∈ splitWs l, t ≠ [] ∧ ∀ c ∈ t, isRustWhitespace c = false :=
  splitWsAux_mem_valid l [] (by simp)

end Nitox

namespace Nitox

theorem of_validArgB {s : List Char} (h : validArgB s = true) :
    s ≠ [] ∧ ∀ c ∈ s, isRustWhitespace c = false := by
  rw [validArgB, Bool.and_eq_true] at h
  obtain ⟨h1, h2⟩ := h
  constructor
  · intro he
    subst he
    simp at h1
  · intro c hc
    have := List.all_eq_true.mp h2 c hc
    simpa using this

theorem validArgB_of {s : List Char} (h1 : s ≠ [])
    (h2 : ∀ c ∈ s, isRustWhitespace c = false) : validArgB s = true := by
  rw [validArgB, Bool.and_eq_true]
  refine ⟨by simpa using h1, List.all_eq_true.mpr ?_⟩
  intro c hc
  simpa using h2 c hc

theorem try_parse_append_crlf (body : List Char) :
    SubCommand.try_parse (utf8EncodeStr body ++ [0x0D, 0x0A]) =
      (match splitWs body with
       | [] => .err .CommandMalformed
       | cmd :: split =>
         if utf8EncodeStr cmd ≠ CMD_NAME then .err .CommandMalformed
         else
           match split with
           | [] => .err .CommandMalformed
           | subject :: split2 =>
             match split2.getLast? with
             | none => .err .CommandMalformed
             | some sid =>
               .ok { subject := subject, queue_group := split2.dropLast.head?,
                     sid := sid }) := by
  have hlen : (utf8EncodeStr body ++ [0x0D, 0x0A]).length - 2
      = (utf8EncodeStr body).length := by
    simp only [List.length_append, List.length_cons, List.length_nil]
    omega
  have hdrop : (utf8EncodeStr body ++ [0x0D, 0x0A]).drop
      ((utf8EncodeStr body ++ [0x0D, 0x0A]).length - 2) = [0x0D, 0x0A] := by
    rw [hlen, List.drop_left]
  rw [SubCommand.try_parse]
  rw [if_neg (by simp only [List.length_append, List.length_cons, List.length_nil]; omega)]
  rw [if_neg (not_not_intro hdrop)]
  rw [hlen, List.take_left, utf8Decode_encodeStr]

end Nitox

namespace Nitox

end Nitox

namespace Nitox

theorem try_parse_ok_valid (buf : List Nat) (v : SubCommand)
    (h : SubCommand.try_parse buf = .ok v) :
    validArgB v.subject = true ∧ (∀ g, v.queue_group = some g → validArgB g = true) ∧
      validArgB v.sid = true := by
  rw [SubCommand.try_parse] at h
  by_cases hl : buf.length < 2
  · rw [if_pos hl] at h
    exact absurd h (by simp)
  · rw [if_neg hl] at h
    by_cases hterm : buf.drop (buf.length - 2) ≠ [0x0D, 0x0A]
    · rw [if_pos hterm] at h
      exact absurd h (by simp)
    · rw [if_neg hterm] at h
      cases hdec : utf8Decode (buf.take (buf.length - 2)) with
      | none =>
        rw [hdec] at h
        exact absurd h (by simp)
      | some whole =>
        rw [hdec] at h
        dsimp only at h
        cases hsp : splitWs whole with
        | nil =>
          rw [hsp] at h
          exact absurd h (by simp)
        | cons cmd split_ =>
          rw [hsp] at h
          dsimp only at h
          by_cases hcmd : utf8EncodeStr cmd ≠ CMD_NAME
          · rw [if_pos hcmd] at h
            exact absurd h (by simp)
          · rw [if_neg hcmd] at h
            cases split_ with
            | nil => exact absurd h (by simp)
            | cons subject split2 =>
              dsimp only at h
              cases hlast : split2.getLast? with
              | none =>
                rw [hlast] at h
                exact absurd h (by simp)
              | some sid =>
                rw [hlast] at h
                dsimp only at h
                have hvalid := splitWs_mem_valid whole
                rw [hsp] at hvalid
                injection h with h
                subst h
                refine ⟨?_, ?_, ?_⟩
                · have hm := hvalid subject (by simp)
                  exact validArgB_of hm.1 hm.2
                · intro g hg
                  simp only at hg
                  obtain ⟨ys, hys⟩ := List.head?_eq_some_iff.mp hg
                  have hgmem : g ∈ split2 :=
                    List.dropLast_subset split2 (by rw [hys]; simp)
                  have hm := hvalid g (by simp [hgmem])
                  exact validArgB_of hm.1 hm.2
                · have hsidmem : sid ∈ split2 := List.mem_of_getLast?_eq_some hlast
                  have hm := hvalid sid (by simp [hsidmem])
                  exact validArgB_of hm.1 hm.2

end Nitox

namespace Nitox

instance instDecEqExceptLocal {ε α : Type} [DecidableEq ε] [DecidableEq α] :
    DecidableEq (Except ε α) := fun x y =>
  match x, y with
  | .ok a, .ok b =>
    if h : a = b then isTrue (by rw [h]) else isFalse (fun hc => h (Except.ok.inj hc))
  | .error a, .error b =>
    if h : a = b then isTrue (by rw [h]) else isFalse (fun hc => h (Except.error.inj hc))
  | .ok _, .error _ => isFalse (fun hc => Except.noConfusion hc)
  | .error _, .ok _ => isFalse (fun hc => Except.noConfusion hc)

theorem alphanumericCharset_not_ws :
    ∀ c ∈ alphanumericCharset, isRustWhitespace c = false := by decide

theorem generate_sid_valid (rng : Nat → Fin 62) :
    validArgB (SubCommand.generate_sid rng) = true := by
  apply validArgB_of
  · simp [SubCommand.generate_sid]
  · intro c hc
    simp only [SubCommand.generate_sid, List.mem_map] at hc
    obtain ⟨i, _, hceq⟩ := hc
    rw [← hceq]
    have hmem : ∀ f : Fin alphanumericCharset.length,
        alphanumericCharset.get f ∈ alphanumericCharset := by
      intro f
      rcases f with ⟨j, hj⟩
      exact List.get_mem _ _ _
    exact alphanumericCharset_not_ws _ (hmem _)

theorem validate_ok_iff (b : SubCommandBuilder) :
    b.validate = .ok () ↔
      (∀ s, b.subject = some s → validArgB s = true) ∧
      (∀ g, b.queue_group = some (some g) → validArgB g = true) := by
  rcases b with ⟨subj, qgf, sidf⟩
  rcases subj with _ | s
  · rcases qgf with _ | (_ | g)
    · simp [SubCommandBuilder.validate, check_cmd_arg]
    · simp [SubCommandBuilder.validate, check_cmd_arg]
    · by_cases hv : validArgB g <;>
        simp [SubCommandBuilder.validate, check_cmd_arg, hv]
  · by_cases hs : validArgB s
    · rcases qgf with _ | (_ | g)
      · simp [SubCommandBuilder.validate, check_cmd_arg, hs]
      · simp [SubCommandBuilder.validate, check_cmd_arg, hs]
      · by_cases hv : validArgB g <;>
          simp [SubCommandBuilder.validate, check_cmd_arg, hs, hv]
    · rcases qgf with _ | (_ | g)
      · simp [SubCommandBuilder.validate, check_cmd_arg, hs]
      · simp [SubCommandBuilder.validate, check_cmd_arg, hs]
      · by_cases hv : validArgB g <;>
          simp [SubCommandBuilder.validate, check_cmd_arg, hs, hv]

theorem build_ok_shape (b : SubCommandBuilder) (rng : Nat → Fin 62) (v : SubCommand)
    (h : b.build rng = .ok v) :
    validArgB v.subject = true ∧ (∀ g, v.queue_group = some g → validArgB g = true) ∧
      (b.sid = none → validArgB v.sid = true) := by
  rw [SubCommandBuilder.build] at h
  cases hval : b.validate with
  | error f =>
    rw [hval] at h
    exact absurd h (by simp)
  | ok u =>
    cases u
    rw [hval] at h
    dsimp only at h
    cases hsub : b.subject with
    | none =>
      rw [hsub] at h
      exact absurd h (by simp)
    | some subj =>
      rw [hsub] at h
      dsimp only at h
      injection h with h
      subst h
      obtain ⟨hS, hQ⟩ := (validate_ok_iff b).mp hval
      refine ⟨hS subj hsub, ?_, ?_⟩
      · intro g hg
        dsimp only at hg
        apply hQ
        cases hqg : b.queue_group with
        | none =>
          rw [hqg] at hg
          simp at hg
        | some qgm =>
          rw [hqg] at hg
          simp only [Option.getD_some] at hg
          rw [hg]
      · intro hsid
        dsimp only
        rw [hsid, Option.getD_none]
        exact generate_sid_valid rng

end Nitox

namespace Nitox

theorem validate_err_subject (b : SubCommandBuilder) (s : List Char)
    (hs : b.subject = some s) (hv : validArgB s = false) :
    b.validate = .error "subject".toList := by
  rw [SubCommandBuilder.validate, hs]
  dsimp only
  rw [check_cmd_arg, if_neg (by rw [hv]; exact Bool.false_ne_true)]

theorem validate_err_queue_group (b : SubCommandBuilder) (g : List Char)
    (hsubj : ∀ s, b.subject = some s → validArgB s = true)
    (hq : b.queue_group = some (some g)) (hv : validArgB g = false) :
    b.validate = .error "queue group".toList := by
  rw [SubCommandBuilder.validate]
  cases hs : b.subject with
  | none =>
    dsimp only
    rw [hq]
    dsimp only
    rw [check_cmd_arg, if_neg (by rw [hv]; exact Bool.false_ne_true)]
  | some s =>
    dsimp only
    rw [check_cmd_arg, if_pos (hsubj s hs)]
    dsimp only
    rw [hq]
    dsimp only
    rw [check_cmd_arg, if_neg (by rw [hv]; exact Bool.false_ne_true)]

theorem build_err_of_validate (b : SubCommandBuilder) (rng : Nat → Fin 62)
    (f : List Char) (h : b.validate = .error f) :
    b.build rng = .error (.ValidationError f) := by
  rw [SubCommandBuilder.build, h]

theorem build_ok_of_valid (b : SubCommandBuilder) (rng : Nat → Fin 62) (s : List Char)
    (hs : b.subject = some s) (hval : b.validate = .ok ()) :
    b.build rng = .ok ⟨s, b.queue_group.getD none,
      b.sid.getD (SubCommand.generate_sid rng)⟩ := by
  rw [SubCommandBuilder.build, hval]
  dsimp only
  rw [hs]

end Nitox

namespace Nitox

/-- C1 (amended): for every `SubCommand` value whose fields satisfy the
argument-format rule — `subject` and `sid` non-empty and whitespace-free,
and `queue_group`, when present, non-empty and whitespace-free — parsing
the bytes produced by `into_vec` returns exactly that value.  (The claim as
stated, quantified over every value the validating constructor can produce,
fails because the builder does not validate a supplied `sid`; see the
counterexample.) -/
theorem round_trip_valid_fields (subject sid : List Char)
    (queue_group : Option (List Char))
    (hs : validArgB subject = true) (hi : validArgB sid = true)
    (hq : ∀ g, queue_group = some g → validArgB g = true) :
    SubCommand.try_parse (SubCommand.into_vec ⟨subject, queue_group, sid⟩) =
      .ok ⟨subject, queue_group, sid⟩ := by
  obtain ⟨hs1, hs2⟩ := of_validArgB hs
  obtain ⟨hi1, hi2⟩ := of_validArgB hi
  cases queue_group with
  | none =>
    have henc : SubCommand.into_vec ⟨subject, none, sid⟩
        = utf8EncodeStr ("SUB\t".toList ++ subject ++ '\t' :: sid) ++ [0x0D, 0x0A] := by
      simp only [SubCommand.into_vec]
      rw [show "SUB\t".toList ++ subject ++ [] ++ '\t' :: sid ++ "\r\n".toList
          = ("SUB\t".toList ++ subject ++ '\t' :: sid) ++ "\r\n".toList by simp]
      rw [utf8EncodeStr_append]
      rfl
    rw [henc, try_parse_append_crlf]
    have hsplit : splitWs ("SUB\t".toList ++ subject ++ '\t' :: sid)
        = [['S', 'U', 'B'], subject, sid] := by
      rw [show ("SUB\t".toList ++ subject ++ '\t' :: sid : List Char)
          = ['S', 'U', 'B'] ++ '\t' :: (subject ++ '\t' :: sid) by simp]
      rw [splitWs_token_sep ['S', 'U', 'B'] (by decide) (by decide) '\t' (by decide)]
      rw [splitWs_token_sep subject hs1 hs2 '\t' (by decide)]
      rw [splitWs_token_end sid hi1 hi2]
    rw [hsplit]
    have hcmd : utf8EncodeStr ['S', 'U', 'B'] = CMD_NAME := by decide
    simp [hcmd]
  | some g =>
    obtain ⟨hg1, hg2⟩ := of_validArgB (hq g rfl)
    have henc : SubCommand.into_vec ⟨subject, some g, sid⟩
        = utf8EncodeStr ("SUB\t".toList ++ subject ++ '\t' :: g ++ '\t' :: sid)
            ++ [0x0D, 0x0A] := by
      simp only [SubCommand.into_vec]
      rw [show "SUB\t".toList ++ subject ++ '\t' :: g ++ '\t' :: sid ++ "\r\n".toList
          = ("SUB\t".toList ++ subject ++ '\t' :: g ++ '\t' :: sid) ++ "\r\n".toList by simp]
      rw [utf8EncodeStr_append]
      rfl
    rw [henc, try_parse_append_crlf]
    have hsplit : splitWs ("SUB\t".toList ++ subject ++ '\t' :: g ++ '\t' :: sid)
        = [['S', 'U', 'B'], subject, g, sid] := by
      rw [show ("SUB\t".toList ++ subject ++ '\t' :: g ++ '\t' :: sid : List Char)
          = ['S', 'U', 'B'] ++ '\t' :: (subject ++ '\t' :: (g ++ '\t' :: sid)) by simp]
      rw [splitWs_token_sep ['S', 'U', 'B'] (by decide) (by decide) '\t' (by decide)]
      rw [splitWs_token_sep subject hs1 hs2 '\t' (by decide)]
      rw [splitWs_token_sep g hg1 hg2 '\t' (by decide)]
      rw [splitWs_token_end sid hi1 hi2]
    rw [hsplit]
    have hcmd : utf8EncodeStr ['S', 'U', 'B'] = CMD_NAME := by decide
    simp [hcmd]

/-- C1 witness: the round-trip theorem applied at the concrete value
`{subject: "FOO", queue_group: None, sid: "pouet"}`. -/
theorem round_trip_valid_fields_witness :
    SubCommand.try_parse (SubCommand.into_vec ⟨"FOO".toList, none, "pouet".toList⟩) =
      .ok ⟨"FOO".toList, none, "pouet".toList⟩ :=
  round_trip_valid_fields "FOO".toList "pouet".toList none (by decide) (by decide)
    (fun g h => nomatch h)

/-- C1 counterexample: the claim as stated is false.  The builder accepts a
supplied `sid` of `" "` (a single space, never validated), producing the
value `{subject: "FOO", queue_group: None, sid: " "}`; encoding it and
parsing the result yields `CommandMalformed`, not the original value. -/
theorem round_trip_counterexample :
    SubCommandBuilder.build ⟨some "FOO".toList, none, some [' ']⟩ rng0
      = .ok ⟨"FOO".toList, none, [' ']⟩ ∧
    SubCommand.try_parse (SubCommand.into_vec ⟨"FOO".toList, none, [' ']⟩)
      = .err .CommandMalformed := by
  exact ⟨by decide, by decide⟩

end Nitox

namespace Nitox

/-- C2: the claim states `try_parse` never panics on any byte buffer, and
that the subtraction and slicing in the terminator check are safe for all
input lengths.  The code violates this: `buf[len - 2..]` panics on the
empty buffer and on every one-byte buffer. -/
theorem try_parse_short_buffer_panics :
    SubCommand.try_parse [] = .panic ∧ SubCommand.try_parse [0x41] = .panic :=
  ⟨rfl, rfl⟩

/-- C3: every buffer of length at least two that does not end in CRLF is
rejected with `IncompleteCommandError`; in particular the exact bytes of
`"SUB\tFOO\tpouet"` (no terminator) are.  But for buffers shorter than the
two-byte terminator the code panics instead of returning
`IncompleteCommandError`, contradicting the claim. -/
theorem terminator_guard :
    (∀ buf : List Nat, 2 ≤ buf.length → buf.drop (buf.length - 2) ≠ [0x0D, 0x0A] →
      SubCommand.try_parse buf = .err .IncompleteCommandError) ∧
    SubCommand.try_parse
      [0x53, 0x55, 0x42, 0x09, 0x46, 0x4F, 0x4F, 0x09, 0x70, 0x6F, 0x75, 0x65, 0x74]
      = .err .IncompleteCommandError ∧
    SubCommand.try_parse [0x53] = .panic := by
  refine ⟨?_, by decide, rfl⟩
  intro buf h1 h2
  rw [SubCommand.try_parse, if_neg (by omega), if_pos h2]

/-- C3 witness: the general guard applied to a two-byte buffer that does
not end in CRLF. -/
theorem terminator_guard_witness :
    SubCommand.try_parse [0x41, 0x41] = .err .IncompleteCommandError :=
  terminator_guard.1 [0x41, 0x41] (by decide) (by decide)

end Nitox

namespace Nitox

/-- C4 (amended): the builder's finalization validates the supplied
`subject` and `queue_group` fields — an invalid one fails with a
validation error naming that field, and when the subject is supplied and
every supplied subject/queue-group field is valid, finalization succeeds.
The supplied `sid` is never validated (see the counterexample), so it is
excluded from the completeness statement. -/
theorem builder_validation_amended (b : SubCommandBuilder) (rng : Nat → Fin 62) :
    (∀ s, b.subject = some s → validArgB s = false →
      b.build rng = .error (.ValidationError "subject".toList)) ∧
    ((∀ s, b.subject = some s → validArgB s = true) →
      ∀ g, b.queue_group = some (some g) → validArgB g = false →
        b.build rng = .error (.ValidationError "queue group".toList)) ∧
    (∀ s, b.subject = some s → validArgB s = true →
      (∀ g, b.queue_group = some (some g) → validArgB g = true) →
        b.build rng = .ok ⟨s, b.queue_group.getD none,
          b.sid.getD (SubCommand.generate_sid rng)⟩) := by
  refine ⟨?_, ?_, ?_⟩
  · intro s hs hv
    exact build_err_of_validate _ _ _ (validate_err_subject b s hs hv)
  · intro hsubj g hq hv
    exact build_err_of_validate _ _ _ (validate_err_queue_group b g hsubj hq hv)
  · intro s hs hsv hqv
    apply build_ok_of_valid b rng s hs
    apply (validate_ok_iff b).mpr
    refine ⟨?_, hqv⟩
    intro s' hs'
    rw [hs] at hs'
    injection hs' with hs'
    rw [← hs']
    exact hsv

/-- C4 witness: a builder with subject `" "` fails with a validation error
naming "subject". -/
theorem builder_validation_amended_witness :
    SubCommandBuilder.build ⟨some [' '], none, none⟩ rng0
      = .error (.ValidationError "subject".toList) :=
  (builder_validation_amended ⟨some [' '], none, none⟩ rng0).1 [' '] rfl (by decide)

/-- C4 counterexample: the claim as stated is false — `sid` is a provided
string field containing whitespace (a tab), yet finalization succeeds
instead of failing with a validation error naming it. -/
theorem builder_sid_not_validated :
    validArgB ['\t'] = false ∧
    SubCommandBuilder.build ⟨some "FOO".toList, none, some ['\t']⟩ rng0
      = .ok ⟨"FOO".toList, none, ['\t']⟩ :=
  ⟨by decide, by decide⟩

/-- C5: `into_vec` emits exactly the tag bytes `SUB`, one tab, the subject
bytes, then — only when a queue group is present — one tab and its bytes,
then one tab, the sid bytes, and CRLF; no extra separator appears when the
queue group is absent, and there is no trailing separator.  In particular
`{subject: "FOO", queue_group: None, sid: "pouet"}` encodes to exactly the
bytes of `"SUB\tFOO\tpouet\r\n"`. -/
theorem encoding_exact (v : SubCommand) :
    v.into_vec = [0x53, 0x55, 0x42, 0x09] ++ utf8EncodeStr v.subject ++
      (match v.queue_group with
       | some g => 0x09 :: utf8EncodeStr g
       | none => []) ++ 0x09 :: utf8EncodeStr v.sid ++ [0x0D, 0x0A] ∧
    SubCommand.into_vec ⟨"FOO".toList, none, "pouet".toList⟩
      = [0x53, 0x55, 0x42, 0x09, 0x46, 0x4F, 0x4F, 0x09,
         0x70, 0x6F, 0x75, 0x65, 0x74, 0x0D, 0x0A] := by
  constructor
  · rcases v with ⟨subj, qg, sid⟩
    cases qg with
    | none =>
      dsimp only
      simp only [SubCommand.into_vec]
      rw [show "SUB\t".toList ++ subj ++ [] ++ '\t' :: sid ++ "\r\n".toList
          = "SUB\t".toList ++ (subj ++ (['\t'] ++ (sid ++ "\r\n".toList))) by simp]
      simp only [utf8EncodeStr_append]
      rw [show utf8EncodeStr "SUB\t".toList = [0x53, 0x55, 0x42, 0x09] by decide,
        show utf8EncodeStr ['\t'] = [0x09] by decide,
        show utf8EncodeStr "\r\n".toList = [0x0D, 0x0A] by decide]
      simp
    | some g =>
      dsimp only
      simp only [SubCommand.into_vec]
      rw [show "SUB\t".toList ++ subj ++ '\t' :: g ++ '\t' :: sid ++ "\r\n".toList
          = "SUB\t".toList ++ (subj ++ (['\t'] ++ (g ++ (['\t'] ++ (sid ++ "\r\n".toList)))))
          by simp]
      simp only [utf8EncodeStr_append]
      rw [show utf8EncodeStr "SUB\t".toList = [0x53, 0x55, 0x42, 0x09] by decide,
        show utf8EncodeStr ['\t'] = [0x09] by decide,
        show utf8EncodeStr "\r\n".toList = [0x0D, 0x0A] by decide]
      simp
  · decide

end Nitox

namespace Nitox

/-- C6 (amended): every value obtained from a successful `try_parse` has a
non-empty, whitespace-free subject and sid, and a non-empty,
whitespace-free queue group whenever one is present.  A value obtained
from a successful builder finalization satisfies the same constraints on
subject and queue group, and on sid whenever the sid was not explicitly
supplied; an explicitly supplied sid is not checked (see the
counterexample). -/
theorem constructed_value_invariant_amended :
    (∀ buf v, SubCommand.try_parse buf = .ok v →
      validArgB v.subject = true ∧ (∀ g, v.queue_group = some g → validArgB g = true) ∧
        validArgB v.sid = true) ∧
    (∀ (b : SubCommandBuilder) (rng : Nat → Fin 62) v, b.build rng = .ok v →
      validArgB v.subject = true ∧ (∀ g, v.queue_group = some g → validArgB g = true) ∧
        (b.sid = none → validArgB v.sid = true)) :=
  ⟨try_parse_ok_valid, build_ok_shape⟩

/-- C6 witness: the parse-side invariant applied to the parse of
`"SUB\tFOO\tpouet\r\n"`. -/
theorem constructed_value_invariant_witness :
    validArgB "FOO".toList = true ∧
    (∀ g, (none : Option (List Char)) = some g → validArgB g = true) ∧
    validArgB "pouet".toList = true :=
  constructed_value_invariant_amended.1
    [0x53, 0x55, 0x42, 0x09, 0x46, 0x4F, 0x4F, 0x09, 0x70, 0x6F, 0x75, 0x65, 0x74,
     0x0D, 0x0A]
    ⟨"FOO".toList, none, "pouet".toList⟩ (by decide)

/-- C6 counterexample: the claim as stated is false — a successful builder
finalization can produce a value whose sid is empty, violating the
invariant. -/
theorem invariant_counterexample :
    SubCommandBuilder.build ⟨some "FOO".toList, none, some []⟩ rng0
      = .ok ⟨"FOO".toList, none, []⟩ ∧
    validArgB ([] : List Char) = false :=
  ⟨by decide, by decide⟩

/-- C7: a CRLF-terminated, valid-UTF-8 buffer whose first
whitespace-separated token is not exactly `SUB` — or that has no token at
all — parses to `CommandMalformed`, regardless of the remaining content. -/
theorem tag_guard (buf : List Nat) (chars : List Char)
    (h1 : 2 ≤ buf.length)
    (h2 : buf.drop (buf.length - 2) = [0x0D, 0x0A])
    (h3 : utf8Decode (buf.take (buf.length - 2)) = some chars)
    (h4 : (splitWs chars).head? ≠ some ['S', 'U', 'B']) :
    SubCommand.try_parse buf = .err .CommandMalformed := by
  rw [SubCommand.try_parse, if_neg (by omega), if_neg (not_not_intro h2), h3]
  dsimp only
  cases hsp : splitWs chars with
  | nil => rfl
  | cons cmd rest =>
    dsimp only
    have hne : utf8EncodeStr cmd ≠ CMD_NAME := by
      intro hc
      apply h4
      rw [hsp]
      have hSUB : utf8EncodeStr ['S', 'U', 'B'] = CMD_NAME := by decide
      have hcmd : cmd = ['S', 'U', 'B'] :=
        utf8EncodeStr_injective _ _ (hc.trans hSUB.symm)
      rw [hcmd]
      rfl
    rw [if_pos hne]

/-- C7 witness: the tag guard applied to the exact bytes of
`"PUB\tFOO\tpouet\r\n"`. -/
theorem tag_guard_witness :
    SubCommand.try_parse
      [0x50, 0x55, 0x42, 0x09, 0x46, 0x4F, 0x4F, 0x09, 0x70, 0x6F, 0x75, 0x65, 0x74,
       0x0D, 0x0A] = .err .CommandMalformed :=
  tag_guard _ "PUB\tFOO\tpouet".toList (by decide) (by decide) (by decide) (by decide)

/-- C8: the exact bytes of `"SUB\tFOO\tpouet\r\n"` parse to
`{subject: "FOO", queue_group: None, sid: "pouet"}`, and the exact bytes of
`"SUB\tFOO\tGRP1\tpouet\r\n"` parse to
`{subject: "FOO", queue_group: Some "GRP1", sid: "pouet"}`. -/
theorem concrete_parse_scenarios :
    SubCommand.try_parse
      [0x53, 0x55, 0x42, 0x09, 0x46, 0x4F, 0x4F, 0x09, 0x70, 0x6F, 0x75, 0x65, 0x74,
       0x0D, 0x0A] = .ok ⟨"FOO".toList, none, "pouet".toList⟩ ∧
    SubCommand.try_parse
      [0x53, 0x55, 0x42, 0x09, 0x46, 0x4F, 0x4F, 0x09, 0x47, 0x52, 0x50, 0x31, 0x09,
       0x70, 0x6F, 0x75, 0x65, 0x74, 0x0D, 0x0A]
      = .ok ⟨"FOO".toList, some "GRP1".toList, "pouet".toList⟩ :=
  ⟨by decide, by decide⟩

end Nitox

namespace Nitox

/-- C9: for every state of the random generator, the auto-generated
subscription id is exactly 12 characters long, every character is drawn
from the 62-symbol alphanumeric alphabet, and is alphanumeric. -/
theorem default_sid_shape (rng : Nat → Fin 62) :
    (SubCommand.generate_sid rng).length = 12 ∧
    ∀ c ∈ SubCommand.generate_sid rng, c ∈ alphanumericCharset ∧ c.isAlphanum = true := by
  constructor
  · simp [SubCommand.generate_sid]
  · intro c hc
    simp only [SubCommand.generate_sid, List.mem_map] at hc
    obtain ⟨i, _, hceq⟩ := hc
    have hmem : ∀ f : Fin alphanumericCharset.length,
        alphanumericCharset.get f ∈ alphanumericCharset := by
      intro f
      rcases f with ⟨j, hj⟩
      exact List.get_mem _ _ _
    have halnum : ∀ c ∈ alphanumericCharset, c.isAlphanum = true := by decide
    rw [← hceq]
    exact ⟨hmem _, halnum _ (hmem _)⟩

/-- C9 witness: the id shape theorem applied to the constant generator. -/
theorem default_sid_shape_witness :
    (SubCommand.generate_sid rng0).length = 12 ∧
    ∀ c ∈ SubCommand.generate_sid rng0, c ∈ alphanumericCharset ∧ c.isAlphanum = true :=
  default_sid_shape rng0

/-- C10: a CRLF-terminated, valid-UTF-8 buffer whose tokens are `SUB`,
`t1`, ..., `tn` with `n ≥ 4` parses successfully rather than being
rejected: the subject is `t1`, the queue group is `Some t2`, the sid is
the last token `tn`, and the tokens strictly between `t2` and `tn` are
silently discarded. -/
theorem surplus_token_leniency (buf : List Nat) (chars s q tn : List Char)
    (mid : List (List Char))
    (h1 : 2 ≤ buf.length)
    (h2 : buf.drop (buf.length - 2) = [0x0D, 0x0A])
    (h3 : utf8Decode (buf.take (buf.length - 2)) = some chars)
    (h4 : splitWs chars = ['S', 'U', 'B'] :: s :: q :: mid ++ [tn])
    (h5 : mid ≠ []) :
    SubCommand.try_parse buf = .ok ⟨s, some q, tn⟩ := by
  rw [SubCommand.try_parse, if_neg (by omega), if_neg (not_not_intro h2), h3]
  dsimp only
  rw [h4]
  simp only [List.cons_append]
  rw [if_neg (not_not_intro (by decide))]
  rw [show q :: (mid ++ [tn]) = (q :: mid) ++ [tn] by simp, List.getLast?_concat]
  dsimp only
  rw [List.dropLast_concat]
  rfl

/-- C10 witness: the leniency theorem applied to the bytes of
`"SUB\ta\tb\tc\td\r\n"`, whose middle token `c` is discarded. -/
theorem surplus_token_leniency_witness :
    SubCommand.try_parse
      [0x53, 0x55, 0x42, 0x09, 0x61, 0x09, 0x62, 0x09, 0x63, 0x09, 0x64, 0x0D, 0x0A]
      = .ok ⟨['a'], some ['b'], ['d']⟩ :=
  surplus_token_leniency _ "SUB\ta\tb\tc\td".toList ['a'] ['b'] ['d'] [['c']]
    (by decide) (by decide) (by decide) (by decide) (by decide)

end Nitox
